import Mathlib

/-!
Verification development for the Open3D fork.

Shallow embedding of two source files:
  * `cpp/open3d/t/geometry/kernel/PointCloudImpl.h`
    (point-wise covariance, the closed-form 3x3 symmetric eigensolver used
    for normal estimation, and the depth unprojection kernel);
  * `cpp/open3d/core/Indexer.h`
    (`OffsetCalculator`, `TensorRef`, and the `Indexer` accessors).

Scalars of the floating-point kernels are embedded as exact rationals.
The three transcendental library calls the eigensolver makes, `sqrt`,
`acos` and `cos`, are taken as function parameters; every theorem below
about the eigensolver only exercises control paths that never evaluate
those parameters, so the results hold for every interpretation of them.
Machine integers are embedded as `Nat`/`Int`, with an explicit `% 2^32`
wherever the source computes in `uint32_t`.
-/

namespace Open3D

/-! ### PointCloudImpl.h: the eigensolver and covariance kernels -/

/-- Embeds the `max_coeff` scan at the top of
`EstimatePointWiseNormalsWithFastEigen3x3`:
`max_coeff = covariance_ptr[0]; for (i = 1; i < 9; i++) if (max_coeff >
covariance_ptr[i]) max_coeff = covariance_ptr[i];`.
Note the comparison direction: the loop replaces `max_coeff` whenever it is
GREATER than the next entry, so it computes the minimum of the nine
entries, despite the variable name. -/
def o3dMinCoeff (cov : ℕ → ℚ) : ℚ :=
  [1, 2, 3, 4, 5, 6, 7, 8].foldl (fun m i => if m > cov i then cov i else m) (cov 0)

/-- Embeds `half_det = O3D_MIN(O3D_MAX(half_det, -1.0), 1.0);` after
expanding the unparenthesized macros `O3D_MIN(a, b) a < b ? a : b` and
`O3D_MAX(a, b) a > b ? a : b` and parsing the resulting token stream with
the C++ conditional-operator grammar:
`half_det > -1.0 ? half_det
                 : (-1.0 < 1.0 ? (half_det > -1.0 ? half_det : -1.0) : 1.0)`.
The branch that would clamp to `1.0` is unreachable. -/
def clampHalfDet (x : ℚ) : ℚ :=
  if x > -1 then x else (if (-1 : ℚ) < 1 then (if x > -1 then x else -1) else 1)

/-- The clamp the specification describes, written from the claim's words:
`min(max(det * 0.5, -1), 1)`. Used only to compare against `clampHalfDet`. -/
def specClampHalfDet (x : ℚ) : ℚ :=
  min (max x (-1)) 1

/-- Embeds `ComputeEigenvector0`: cross products of the three row pairs of
`A - eval0 * I`, picking the one of largest squared norm and normalizing. -/
def computeEigenvector0 (sqrtF : ℚ → ℚ) (A : ℕ → ℚ) (eval0 : ℚ) : ℚ × ℚ × ℚ :=
  let r00 := A 0 - eval0
  let r01 := A 1
  let r02 := A 2
  let r10 := A 1
  let r11 := A 4 - eval0
  let r12 := A 5
  let r20 := A 2
  let r21 := A 5
  let r22 := A 8 - eval0
  let c0 : ℚ × ℚ × ℚ := (r01 * r12 - r02 * r11, r02 * r10 - r00 * r12, r00 * r11 - r01 * r10)
  let c1 : ℚ × ℚ × ℚ := (r01 * r22 - r02 * r21, r02 * r20 - r00 * r22, r00 * r21 - r01 * r20)
  let c2 : ℚ × ℚ × ℚ := (r11 * r22 - r12 * r21, r12 * r20 - r10 * r22, r10 * r21 - r11 * r20)
  let d0 := c0.1 * c0.1 + c0.2.1 * c0.2.1 + c0.2.2 * c0.2.2
  let d1 := c1.1 * c1.1 + c1.2.1 * c1.2.1 + c1.2.2 * c1.2.2
  let d2 := c2.1 * c2.1 + c2.2.1 * c2.2.1 + c2.2.2 * c2.2.2
  let dmax := if d1 > d0 then d1 else d0
  let imax0 : ℕ := if d1 > d0 then 1 else 0
  let imax := if d2 > dmax then 2 else imax0
  if imax = 0 then
    let s := sqrtF d0
    (c0.1 / s, c0.2.1 / s, c0.2.2 / s)
  else if imax = 1 then
    let s := sqrtF d1
    (c1.1 / s, c1.2.1 / s, c1.2.2 / s)
  else
    let s := sqrtF d2
    (c2.1 / s, c2.2.1 / s, c2.2.2 / s)

/-- Embeds `ComputeEigenvector1`: builds an orthonormal pair `U`, `V` in the
orthogonal complement of `evec0` and solves the projected 2x2 problem.
Both `O3D_MAX(a, b)` uses expand to the full statement `a > b ? a : b`, so
here the macro really does compute the maximum. -/
def computeEigenvector1 (sqrtF : ℚ → ℚ) (A : ℕ → ℚ) (evec0 : ℚ × ℚ × ℚ)
    (eval1 : ℚ) : ℚ × ℚ × ℚ :=
  let e0 := evec0.1
  let e1 := evec0.2.1
  let e2 := evec0.2.2
  let U : ℚ × ℚ × ℚ :=
    if |e0| > |e1| then
      let inv_length := 1 / sqrtF (e0 * e0 + e2 * e2)
      (-e2 * inv_length, 0, e0 * inv_length)
    else
      let inv_length := 1 / sqrtF (e1 * e1 + e2 * e2)
      (0, e2 * inv_length, -e1 * inv_length)
  let V : ℚ × ℚ × ℚ :=
    (e1 * U.2.2 - e2 * U.2.1, e2 * U.1 - e0 * U.2.2, e0 * U.2.1 - e1 * U.1)
  let AU : ℚ × ℚ × ℚ :=
    (A 0 * U.1 + A 1 * U.2.1 + A 2 * U.2.2,
     A 1 * U.1 + A 4 * U.2.1 + A 5 * U.2.2,
     A 2 * U.1 + A 5 * U.2.1 + A 8 * U.2.2)
  let AV : ℚ × ℚ × ℚ :=
    (A 0 * V.1 + A 1 * V.2.1 + A 2 * V.2.2,
     A 1 * V.1 + A 4 * V.2.1 + A 5 * V.2.2,
     A 2 * V.1 + A 5 * V.2.1 + A 8 * V.2.2)
  let m00 := U.1 * AU.1 + U.2.1 * AU.2.1 + U.2.2 * AU.2.2 - eval1
  let m01 := U.1 * AV.1 + U.2.1 * AV.2.1 + U.2.2 * AV.2.2
  let m11 := V.1 * AV.1 + V.2.1 * AV.2.1 + V.2.2 * AV.2.2 - eval1
  let absM00 := |m00|
  let absM01 := |m01|
  let absM11 := |m11|
  if absM00 ≥ absM11 then
    let max_abs_comp := if absM00 > absM01 then absM00 else absM01
    if max_abs_comp > 0 then
      if absM00 ≥ absM01 then
        let m01a := m01 / m00
        let m00a := 1 / sqrtF (1 + m01a * m01a)
        let m01b := m01a * m00a
        (m01b * U.1 - m00a * V.1, m01b * U.2.1 - m00a * V.2.1, m01b * U.2.2 - m00a * V.2.2)
      else
        let m00a := m00 / m01
        let m01a := 1 / sqrtF (1 + m00a * m00a)
        let m00b := m00a * m01a
        (m01a * U.1 - m00b * V.1, m01a * U.2.1 - m00b * V.2.1, m01a * U.2.2 - m00b * V.2.2)
    else U
  else
    let max_abs_comp := if absM11 > absM01 then absM11 else absM01
    if max_abs_comp > 0 then
      if absM11 ≥ absM01 then
        let m01a := m01 / m11
        let m11a := 1 / sqrtF (1 + m01a * m01a)
        let m01b := m01a * m11a
        (m11a * U.1 - m01b * V.1, m11a * U.2.1 - m01b * V.2.1, m11a * U.2.2 - m01b * V.2.2)
      else
        let m11a := m11 / m01
        let m01a := 1 / sqrtF (1 + m11a * m11a)
        let m11b := m11a * m01a
        (m11b * U.1 - m01a * V.1, m11b * U.2.1 - m01a * V.2.1, m11b * U.2.2 - m01a * V.2.2)
    else U

/-- Cross product of two 3-vectors, as the eigensolver's final branches
spell it out component-wise. -/
def crossProd (a b : ℚ × ℚ × ℚ) : ℚ × ℚ × ℚ :=
  (a.2.1 * b.2.2 - a.2.2 * b.2.1, a.2.2 * b.1 - a.1 * b.2.2, a.1 * b.2.1 - a.2.1 * b.1)

/-- Embeds `EstimatePointWiseNormalsWithFastEigen3x3`. The covariance buffer
is a read-only memory of rationals indexed by element offset; the result is
the 3-vector written to `normals_ptr`. `sqrtF`, `acosF`, `cosF` stand for
the scalar `sqrt`, `acos` and `cos` library calls. -/
def estimateNormalsFastEigen (sqrtF acosF cosF : ℚ → ℚ) (cov : ℕ → ℚ) : ℚ × ℚ × ℚ :=
  let max_coeff := o3dMinCoeff cov
  if max_coeff = 0 then (0, 0, 0)
  else
    let A : ℕ → ℚ := fun i => cov i / max_coeff
    let norm := A 1 * A 1 + A 2 * A 2 + A 5 * A 5
    if norm > 0 then
      let q := (A 0 + A 4 + A 8) / 3
      let b00 := A 0 - q
      let b11 := A 4 - q
      let b22 := A 8 - q
      let p := sqrtF ((b00 * b00 + b11 * b11 + b22 * b22 + norm * 2) / 6)
      let c00 := b11 * b22 - A 5 * A 5
      let c01 := A 1 * b22 - A 5 * A 2
      let c02 := A 1 * A 5 - b11 * A 2
      let det := (b00 * c00 - A 1 * c01 + A 2 * c02) / (p * p * p)
      let half_det := clampHalfDet (det * 0.5)
      let angle := acosF half_det / 3
      let two_thrids_pi := (2.09439510239319549 : ℚ)
      let beta2 := cosF angle * 2
      let beta0 := cosF (angle + two_thrids_pi) * 2
      let beta1 := -(beta0 + beta2)
      let eval0 := q + p * beta0
      let eval1 := q + p * beta1
      let eval2 := q + p * beta2
      if half_det ≥ 0 then
        let evec2 := computeEigenvector0 sqrtF A eval2
        if eval2 < eval0 ∧ eval2 < eval1 then evec2
        else
          let evec1 := computeEigenvector1 sqrtF A evec2 eval1
          if eval1 < eval0 ∧ eval1 < eval2 then evec1
          else crossProd evec1 evec2
      else
        let evec0 := computeEigenvector0 sqrtF A eval0
        if eval0 < eval1 ∧ eval0 < eval2 then evec0
        else
          let evec1 := computeEigenvector1 sqrtF A evec0 eval1
          if eval1 < eval0 ∧ eval1 < eval2 then evec1
          else crossProd evec0 evec1
    else
      if cov 0 < cov 4 ∧ cov 0 < cov 8 then (1, 0, 0)
      else if cov 0 < cov 4 ∧ cov 0 < cov 8 then (0, 1, 0)
      else (0, 0, 1)

/-- A trivial interpretation of the transcendental calls; usable in closed
evaluations whose control path never reaches them. -/
def zOr : ℚ → ℚ := fun _ => 0

/-- Covariance buffer holding `c` times the 3x3 identity, row-major. -/
def scaleId (c : ℚ) : ℕ → ℚ := fun i => if i = 0 ∨ i = 4 ∨ i = 8 then c else 0

/-- The all-zero covariance buffer. -/
def zeroCov : ℕ → ℚ := fun _ => 0

/-- Covariance buffer reaching the diagonal fallback with the middle
diagonal entry strictly smallest: entries `[2, 0, 0, 0, 1, 0, 0, -1, 3]`.
The `-1` sits in slot 7 (a mirrored slot the `norm` test never reads), so
the minimum of the nine entries is `-1 ≠ 0` while the scaled off-diagonal
norm `A[1]^2 + A[2]^2 + A[5]^2` is `0`. -/
def c4Cov : ℕ → ℚ := fun i =>
  if i = 0 then 2 else if i = 4 then 1 else if i = 7 then -1 else if i = 8 then 3 else 0

/-- The nine per-neighbor accumulators of `EstimatePointWiseCovariance`. -/
structure Cumulants where
  c0 : ℚ
  c1 : ℚ
  c2 : ℚ
  c3 : ℚ
  c4 : ℚ
  c5 : ℚ
  c6 : ℚ
  c7 : ℚ
  c8 : ℚ
deriving DecidableEq

/-- One iteration of the accumulation loop of `EstimatePointWiseCovariance`:
the point memory is read at flat element offsets `idx`, `idx + 1`, `idx + 2`
(exactly as `points_ptr[idx]`, `points_ptr[idx + 1]`, `points_ptr[idx + 2]`). -/
def cumStep (points : ℤ → ℚ) (c : Cumulants) (idx : ℤ) : Cumulants :=
  ⟨c.c0 + points idx, c.c1 + points (idx + 1), c.c2 + points (idx + 2),
   c.c3 + points idx * points idx, c.c4 + points idx * points (idx + 1),
   c.c5 + points idx * points (idx + 2),
   c.c6 + points (idx + 1) * points (idx + 1),
   c.c7 + points (idx + 1) * points (idx + 2),
   c.c8 + points (idx + 2) * points (idx + 2)⟩

/-- Embeds `EstimatePointWiseCovariance`: accumulate, normalize by the
neighbor count, then write the nine output slots in exactly the source's
order, including its mirror assignments `covariance_ptr[4] =
covariance_ptr[1]`, `covariance_ptr[6] = covariance_ptr[2]`,
`covariance_ptr[8] = covariance_ptr[5]`. The returned list holds output
slots 0..8. -/
def estimatePointWiseCovariance (points : ℤ → ℚ) (indices : List ℤ) : List ℚ :=
  let cum := indices.foldl (cumStep points) ⟨0, 0, 0, 0, 0, 0, 0, 0, 0⟩
  let n : ℚ := (indices.length : ℚ)
  let d : Cumulants := ⟨cum.c0 / n, cum.c1 / n, cum.c2 / n, cum.c3 / n, cum.c4 / n,
                        cum.c5 / n, cum.c6 / n, cum.c7 / n, cum.c8 / n⟩
  let cov0 := d.c3 - d.c0 * d.c0
  let cov1 := d.c6 - d.c1 * d.c1
  let cov2 := d.c8 - d.c2 * d.c2
  let cov3 := d.c4 - d.c0 * d.c1
  let cov4 := cov1
  let cov5 := d.c5 - d.c0 * d.c2
  let cov6 := cov2
  let cov7 := d.c7 - d.c1 * d.c2
  let cov8 := cov5
  [cov0, cov1, cov2, cov3, cov4, cov5, cov6, cov7, cov8]

/-- The covariance entry the claim describes, written from the claim's words:
entry `(r, c)` of the row-major 3x3 covariance is the mean of products minus
the product of means over the selected neighbor points (coordinate `k` of
the neighbor at `idx` being the memory value at `idx + k`). Used only to
compare against `estimatePointWiseCovariance`. -/
def specCovRowMajorEntry (points : ℤ → ℚ) (indices : List ℤ) (r c : ℕ) : ℚ :=
  let n : ℚ := (indices.length : ℚ)
  (indices.map (fun idx => points (idx + r) * points (idx + c))).sum / n -
    ((indices.map (fun idx => points (idx + r))).sum / n) *
      ((indices.map (fun idx => points (idx + c))).sum / n)

/-- Point memory for the covariance counterexample: two 3D points
`(0, 0, 0)` and `(1, 2, 3)` stored flat at offsets 0..5. -/
def c2Points : ℤ → ℚ := fun i =>
  if i = 3 then 1 else if i = 4 then 2 else if i = 5 then 3 else 0

/-! ### PointCloudImpl.h: the depth unprojection kernel -/

/-- Mutable state of the unprojection pass: the compaction counter and the
output point buffer (`none` marks a row never written). In the CPU build the
counter is a `std::atomic<int>` and `OPEN3D_ATOMIC_ADD` is a fetch-add; its
final value is the number of increments performed under any interleaving,
which the sequential fold below realizes. -/
structure UnprojState where
  count : ℕ
  buf : ℕ → Option (ℚ × ℚ × ℚ)

/-- Embeds the per-workload lambda of `UnprojectCPU`: decode the strided
pixel `(x, y)` from the linear index, scale the depth, and on a valid depth
claim the next output slot and write the transformed point. `depth x y` is
the value `*depth_indexer.GetDataPtr<scalar_t>(x, y)` and `transform x y d`
abbreviates the point produced by `ti.Unproject` followed by
`ti.RigidTransform` (its value is irrelevant to the row count). -/
def unprojectBody (depth : ℕ → ℕ → ℚ) (transform : ℕ → ℕ → ℚ → ℚ × ℚ × ℚ)
    (depth_scale depth_max : ℚ) (cols_strided stride : ℕ)
    (st : UnprojState) (workload_idx : ℕ) : UnprojState :=
  let y := workload_idx / cols_strided * stride
  let x := workload_idx % cols_strided * stride
  let d := depth x y / depth_scale
  if 0 < d ∧ d < depth_max then
    let idx := st.count
    ⟨st.count + 1, fun s => if s = idx then some (transform x y d) else st.buf s⟩
  else st

/-- Modelled from the spec: `core::kernel::CPULauncher::LaunchGeneralKernel`
(declared in the excluded `kernel/CPULauncher.h`) runs the element kernel
once for every workload index in `[0, n)`; each logical element is processed
by one conceptual task. -/
def launchGeneralKernel {σ : Type} (n : ℕ) (f : σ → ℕ → σ) (init : σ) : σ :=
  (List.range n).foldl f init

/-- Embeds `UnprojectCPU` (color-less path; the optional color buffer shares
the same counter and does not affect the point row count): computes the
strided extents, launches the kernel over `rows_strided * cols_strided`
workloads, reads the final counter and slices the point buffer to
`[0, total_pts_count)`. Returns the row count of the sliced points tensor
together with the final buffer. -/
def unprojectCPU (depth : ℕ → ℕ → ℚ) (transform : ℕ → ℕ → ℚ → ℚ × ℚ × ℚ)
    (depth_scale depth_max : ℚ) (rows cols stride : ℕ) :
    ℕ × (ℕ → Option (ℚ × ℚ × ℚ)) :=
  let rows_strided := rows / stride
  let cols_strided := cols / stride
  let n := rows_strided * cols_strided
  let final := launchGeneralKernel n
    (unprojectBody depth transform depth_scale depth_max cols_strided stride)
    ⟨0, fun _ => none⟩
  (final.count, final.buf)

/-- Validity test of a strided pixel, written from the claim's words: the
workload's depth value divided by `depth_scale` lies strictly between `0`
and `depth_max`. -/
def validStridedPixel (depth : ℕ → ℕ → ℚ) (depth_scale depth_max : ℚ)
    (cols_strided stride : ℕ) (workload_idx : ℕ) : Bool :=
  let y := workload_idx / cols_strided * stride
  let x := workload_idx % cols_strided * stride
  let d := depth x y / depth_scale
  decide (0 < d ∧ d < depth_max)

/-! ### Indexer.h: OffsetCalculator -/

/-- `MAX_DIMS` of `Indexer.h`. -/
def MAXDIMS : ℕ := 10

/-- One more than the largest `uint32_t`; `index_t` arithmetic wraps at it. -/
def U32 : ℕ := 4294967296

/-- Conversion of an `int64_t` value to `uint32_t` (reduction mod `2^32`). -/
def toU32 (x : ℤ) : ℕ := (x.emod (U32 : ℤ)).toNat

/-- Embeds the state of `OffsetCalculator<NARGS, uint32_t>` after
construction: `dims_`, the padded `sizes_[MAX_DIMS]` and the padded, transposed
`strides_[MAX_DIMS][NARGS]`, all stored as `uint32_t` values. -/
structure OffsetCalc where
  dims : ℕ
  sizes : List ℕ
  strides : List (List ℕ)
deriving DecidableEq

/-- Embeds the `OffsetCalculator` constructor: reject `dims > MAX_DIMS`
(`LogError`, hence `none`), otherwise store `sizes[i]` for `i < dims` and a
padding extent `1` beyond, and `strides[arg][i]` for `i < dims` and `0`
beyond, each value converted to `uint32_t`. -/
def mkOffsetCalc (nargs dims : ℕ) (sizes : List ℤ) (strides : List (List ℤ)) :
    Option OffsetCalc :=
  if dims > MAXDIMS then none
  else some
    { dims := dims
      sizes := (List.range MAXDIMS).map
        (fun i => if i < dims then toU32 (sizes.getD i 0) else 1)
      strides := (List.range MAXDIMS).map
        (fun i => (List.range nargs).map
          (fun a => if i < dims then toU32 ((strides.getD a []).getD i 0) else 0)) }

/-- The loop of `OffsetCalculator::get`, one list entry per axis that is
actually processed (the loop breaks at `dims_`): each step takes
`mod = linear_idx % sizes_[dim]`, divides `linear_idx` down, and accumulates
`mod * strides_[dim][arg]` into every operand's offset with `uint32_t`
wrap-around (the product and the sum both wrap; a single reduction mod
`2^32` of `off + mod * stride` is equal to wrapping each operation). -/
def ocGetLoop : List (ℕ × List ℕ) → ℕ → List ℕ → List ℕ
  | [], _, offsets => offsets
  | (s, st) :: rest, lin, offsets =>
    let m := lin % s
    ocGetLoop rest (lin / s) (List.zipWith (fun o v => (o + m * v) % U32) offsets st)

/-- Embeds `OffsetCalculator::get`: offsets start at zero for every operand,
and the axis loop runs over the first `dims_` axes. -/
def ocGet (oc : OffsetCalc) (nargs : ℕ) (linear_idx : ℕ) : List ℕ :=
  ocGetLoop ((oc.sizes.zip oc.strides).take oc.dims) linear_idx (List.replicate nargs 0)

/-- The projection of `ocGetLoop` onto one operand `a`: the same loop,
carrying only offset `a` and the per-axis `(size, stride[a])` pairs. -/
def ocGetArg : List (ℕ × ℕ) → ℕ → ℕ → ℕ
  | [], _, o => o
  | (s, v) :: rest, lin, o => ocGetArg rest (lin / s) ((o + lin % s * v) % U32)

/-- The exact (non-wrapping) sum accumulated by `ocGetArg`: per axis, the
residue times the stride, with the linear index divided down. -/
def specSum : List (ℕ × ℕ) → ℕ → ℕ
  | [], _ => 0
  | (s, v) :: rest, lin => lin % s * v + specSum rest (lin / s)

/-- The byte offset the claim describes, written from the claim's words: the
sum over axes `d < dims` of
`((i div (sizes[0] * ... * sizes[d-1])) mod sizes[d]) * strides[a][d]`,
in terms of the constructor's original `int64_t` arguments. -/
def specByteOffset (dims : ℕ) (sizes : List ℤ) (strides : List (List ℤ))
    (a i : ℕ) : ℕ :=
  ∑ d ∈ Finset.range dims,
    ((i / ∏ k ∈ Finset.range d, (sizes.getD k 0).toNat) % (sizes.getD d 0).toNat) *
      ((strides.getD a []).getD d 0).toNat

/-! ### Indexer.h: TensorRef and Permute -/

/-- Embeds `TensorRef`: a non-owning descriptor. `data` is the byte address
of `data_ptr_`; `shape` and `byteStrides` are the first `ndims` entries of
the fixed-size arrays (the entries beyond `ndims` are never initialized nor
compared by `operator==`). -/
structure TRef where
  data : ℤ
  ndims : ℕ
  dtypeByteSize : ℤ
  shape : List ℤ
  byteStrides : List ℤ
deriving DecidableEq

/-- The default-constructed `TensorRef()`: null data pointer, zero rank. -/
def defaultTRef : TRef := ⟨0, 0, 0, [], []⟩

/-- Embeds `shape_util::WrapDim` on an in-or-out-of-range axis index with
the conventional Python-style wrapping of negative indices. `Permute` only
reaches it with indices already validated to lie in `[0, ndims)`, where it
is the identity for any wrapping convention. -/
def wrapDim (d : ℤ) (ndims : ℕ) : ℤ :=
  if d < 0 then d + ndims else d

/-- The validation scan of `TensorRef::Permute`:
`std::vector<bool> seen_dims(ndims_, false); for (dim : dims)
seen_dims[dim] = true;`. `operator[]` of `std::vector` is unchecked, so an
entry outside `[0, seen.length)` is an out-of-bounds write — undefined
behavior, embedded as `none`. -/
def markSeen : List Bool → List ℤ → Option (List Bool)
  | seen, [] => some seen
  | seen, d :: rest =>
    if 0 ≤ d ∧ d < (seen.length : ℤ) then markSeen (seen.set d.toNat true) rest
    else none

/-- Outcome of `TensorRef::Permute`: normal return with the rewritten
reference, a raised invalid-argument condition (`LogError` throws before any
mutation), or undefined behavior from the unchecked `seen_dims[dim]` write. -/
inductive PermuteResult where
  | ok (t : TRef)
  | err
  | ub
deriving DecidableEq

/-- The shape/stride rewrite of `TensorRef::Permute`:
`new_shape[i] = shape_[WrapDim(dims[i], ndims_)]` and likewise for the byte
strides; rank, data pointer and element size are untouched. -/
def permuteApply (t : TRef) (dims : List ℤ) : TRef :=
  { t with
    shape := dims.map (fun d => t.shape.getD (wrapDim d t.ndims).toNat 0)
    byteStrides := dims.map (fun d => t.byteStrides.getD (wrapDim d t.ndims).toNat 0) }

/-- Embeds `TensorRef::Permute`: length check (`LogError` on mismatch), the
`seen_dims` scan, the `all_of` permutation check (`LogError` on failure),
then the rewrite. -/
def permute (t : TRef) (dims : List ℤ) : PermuteResult :=
  if dims.length ≠ t.ndims then PermuteResult.err
  else
    match markSeen (List.replicate t.ndims false) dims with
    | none => PermuteResult.ub
    | some seen =>
      if ¬ (seen.all (fun b => b)) then PermuteResult.err
      else PermuteResult.ok (permuteApply t dims)

/-- The identity permutation `[0, 1, ..., n-1]` as an `int64_t` list. -/
def identityDims (n : ℕ) : List ℤ :=
  List.map (fun k : ℕ => (k : ℤ)) (List.range n)

/-! ### Indexer.h: the Indexer and its accessors -/

/-- Embeds the state of `Indexer`: operand counts, the operand `TensorRef`
arrays (represented by their initialized prefixes), the master shape and
master strides, and the rank. -/
structure IndexerS where
  numInputs : ℕ
  numOutputs : ℕ
  inputs : List TRef
  outputs : List TRef
  masterShape : List ℤ
  masterStrides : List ℤ
  ndims : ℕ
deriving DecidableEq

/-- The offset loop of `Indexer::GetWorkloadDataPtr`, one list entry
`(master_stride, byte_stride)` per axis `i < ndims_`:
`offset += workload_idx / master_strides_[i] * tr.byte_strides_[i];
workload_idx = workload_idx % master_strides_[i];`. `int64_t` division
truncates toward zero, which is `Int.tdiv`/`Int.tmod`. -/
def offsetLoop : List (ℤ × ℤ) → ℤ → ℤ → ℤ
  | [], _, acc => acc
  | (m, b) :: rest, idx, acc => offsetLoop rest (Int.tmod idx m) (acc + Int.tdiv idx m * b)

/-- Embeds `Indexer::GetWorkloadDataPtr`: a negative workload index returns
`nullptr` (`none`); otherwise the decoded offset is added to the operand's
data pointer. -/
def getWorkloadDataPtr (ind : IndexerS) (tr : TRef) (workload_idx : ℤ) : Option ℤ :=
  if workload_idx < 0 then none
  else some (tr.data +
    offsetLoop ((ind.masterStrides.take ind.ndims).zip (tr.byteStrides.take ind.ndims))
      workload_idx 0)

/-- Embeds `Indexer::GetOutputPtr(int64_t workload_idx)`, which always reads
`outputs_[0]`. -/
def getOutputPtr (ind : IndexerS) (workload_idx : ℤ) : Option ℤ :=
  getWorkloadDataPtr ind (ind.outputs.getD 0 defaultTRef) workload_idx

/-- Embeds `Indexer::IsReductionDim`: output byte stride zero at `dim` and
master extent greater than one. -/
def isReductionDim (ind : IndexerS) (dim : ℕ) : Prop :=
  (ind.outputs.getD 0 defaultTRef).byteStrides.getD dim 0 = 0 ∧
    1 < ind.masterShape.getD dim 0

/-- The row-major decomposition of a workload index against the master
strides, axis by axis, exactly as the loop of `GetWorkloadDataPtr` consumes
it: coordinate `i` is the quotient by `master_strides_[i]` of the running
remainder. -/
def decompose : List ℤ → ℤ → List ℤ
  | [], _ => []
  | m :: rest, idx => Int.tdiv idx m :: decompose rest (Int.tmod idx m)

/-- Result of a pointer accessor: a data pointer, a null pointer, or a
raised condition. -/
inductive PtrResult where
  | addr (a : ℤ)
  | nullPtr
  | raised
deriving DecidableEq

/-- Embeds `Indexer::GetInputPtr`: an operand index outside
`[0, num_inputs_)` returns `nullptr`; otherwise the workload pointer into
`inputs_[input_idx]` (itself `nullptr` for a negative workload index). -/
def getInputPtr (ind : IndexerS) (input_idx workload_idx : ℤ) : PtrResult :=
  if input_idx < 0 ∨ (ind.numInputs : ℤ) ≤ input_idx then PtrResult.nullPtr
  else
    match getWorkloadDataPtr ind (ind.inputs.getD input_idx.toNat defaultTRef) workload_idx with
    | none => PtrResult.nullPtr
    | some a => PtrResult.addr a

/-- Embeds the `TensorRef` accessor `Indexer::GetInput`, which `LogError`s
(raises) on an operand index outside `[0, num_inputs_)`. -/
def getInputRef (ind : IndexerS) (i : ℤ) : Except Unit TRef :=
  if (ind.numInputs : ℤ) ≤ i ∨ i < 0 then Except.error ()
  else Except.ok (ind.inputs.getD i.toNat defaultTRef)

/-- A concrete one-input, one-output Indexer used for closed evaluations:
master shape `[2, 3]`, master strides `[3, 1]`, the output re-strided to `0`
along axis 0 (a reduction axis). -/
def sampleIndexer : IndexerS :=
  { numInputs := 1
    numOutputs := 1
    inputs := [⟨200, 2, 4, [2, 3], [12, 4]⟩]
    outputs := [⟨100, 2, 4, [2, 3], [0, 4]⟩]
    masterShape := [2, 3]
    masterStrides := [3, 1]
    ndims := 2 }

/-! ## Theorems -/

/-! ### C1: eigensolver on scalar multiples of the identity -/

/-- Helper: for `c > 0` the `max_coeff` scan over the buffer of `c` times
the identity returns `0` — the loop tracks the minimum of the nine entries,
and the off-diagonal slots hold `0`. -/
theorem o3dMinCoeff_scaleId (c : ℚ) (hc : 0 < c) : o3dMinCoeff (scaleId c) = 0 := by
  have hn : ¬ ((0 : ℚ) > c) := not_lt.mpr hc.le
  simp [o3dMinCoeff, scaleId, List.foldl, gt_iff_lt, hc, hn, lt_irrefl]

/-- C1, counterexample: on the identity covariance (the positive scalar
multiple with `c = 1`) `EstimatePointWiseNormalsWithFastEigen3x3` returns
the zero vector, whose squared norm is `0 ≠ 1`, so the result is not a
fixed-axis unit normal as the claim states. -/
theorem C1_identity_not_unit_axis :
    estimateNormalsFastEigen zOr zOr zOr (scaleId 1) = (0, 0, 0) ∧
      (estimateNormalsFastEigen zOr zOr zOr (scaleId 1)).1 ^ 2 +
          (estimateNormalsFastEigen zOr zOr zOr (scaleId 1)).2.1 ^ 2 +
          (estimateNormalsFastEigen zOr zOr zOr (scaleId 1)).2.2 ^ 2 ≠ 1 := by
  constructor <;> norm_num [estimateNormalsFastEigen, o3dMinCoeff, scaleId]

/-- C1, amended: for every positive scalar multiple of the identity and for
the all-zero covariance, `EstimatePointWiseNormalsWithFastEigen3x3` returns
the fixed deterministic zero vector `(0, 0, 0)` — without reaching any
square root, arccosine or cosine (the result is the same for every
interpretation of those calls), hence with no NaN and no raise. The
`max_coeff` scan computes the minimum of the nine entries, which is `0` for
these inputs, triggering the degenerate early return. -/
theorem C1_zero_normal (sqrtF acosF cosF : ℚ → ℚ) (c : ℚ) (hc : 0 < c) :
    estimateNormalsFastEigen sqrtF acosF cosF (scaleId c) = (0, 0, 0) ∧
      estimateNormalsFastEigen sqrtF acosF cosF zeroCov = (0, 0, 0) := by
  constructor
  · simp [estimateNormalsFastEigen, o3dMinCoeff_scaleId c hc]
  · simp [estimateNormalsFastEigen, o3dMinCoeff, zeroCov]

/-- C1, witness for the amended theorem at `c = 1`. -/
theorem C1_zero_normal_witness :
    (0 : ℚ) < 1 ∧
      (estimateNormalsFastEigen zOr zOr zOr (scaleId 1) = (0, 0, 0) ∧
        estimateNormalsFastEigen zOr zOr zOr zeroCov = (0, 0, 0)) :=
  ⟨by norm_num, C1_zero_normal zOr zOr zOr 1 (by norm_num)⟩

/-! ### C2: covariance output layout -/

/-- C2: evaluating `EstimatePointWiseCovariance` on the two points
`(0, 0, 0)` and `(1, 2, 3)` (neighbor list `[0, 3]`, flat offsets). The
code stores `var(y) = 1` in output slot 1, whereas the row-major `(0, 1)`
entry of the covariance of the selected points is `cov(x, y) = 1/2`, and
the claimed mirror equality `out[1] = out[3]` fails (`1 ≠ 1/2`): the
produced buffer is not the row-major symmetric covariance matrix. -/
theorem C2_covariance_layout_eval :
    (estimatePointWiseCovariance c2Points [0, 3]).getD 1 0 = 1 ∧
      specCovRowMajorEntry c2Points [0, 3] 0 1 = 1 / 2 ∧
      (estimatePointWiseCovariance c2Points [0, 3]).getD 3 0 = 1 / 2 ∧
      (estimatePointWiseCovariance c2Points [0, 3]).getD 1 0 ≠
        (estimatePointWiseCovariance c2Points [0, 3]).getD 3 0 := by
  refine ⟨?_, ?_, ?_, ?_⟩ <;>
    norm_num [estimatePointWiseCovariance, cumStep, c2Points, specCovRowMajorEntry]

/-! ### C3: the half-determinant clamp -/

/-- Helper: after macro expansion, the clamp statement only bounds the
half-determinant from below. -/
theorem clampHalfDet_eq_max (x : ℚ) : clampHalfDet x = max x (-1) := by
  unfold clampHalfDet
  rcases lt_or_le (-1 : ℚ) x with h | h
  · rw [if_pos h, max_eq_left h.le]
  · rw [if_neg (not_lt.mpr h), if_pos (by norm_num), if_neg (not_lt.mpr h),
      max_eq_right h]

/-- C3: the value passed to `acos` is `max(det * 0.5, -1)`, not
`min(max(det * 0.5, -1), 1)`: at `det * 0.5 = 2` the code's expression
(`clampHalfDet`, the faithful macro expansion used inside
`estimateNormalsFastEigen`) yields `2`, which exceeds `1`, while the clamp
the claim describes yields `1`. The upper clamp is lost to ternary-operator
precedence in the unparenthesized `O3D_MIN`/`O3D_MAX` macros. -/
theorem C3_upper_clamp_lost :
    clampHalfDet 2 = 2 ∧ specClampHalfDet 2 = 1 ∧ ¬ clampHalfDet 2 ≤ 1 := by
  norm_num [clampHalfDet, specClampHalfDet]

/-! ### C4: the diagonal fallback tie-break -/

/-- C4: on the buffer `[2, 0, 0, 0, 1, 0, 0, -1, 3]` the diagonal fallback
is reached (minimum entry `-1 ≠ 0`, scaled off-diagonal norm `0`) and the
middle diagonal entry `covariance_ptr[4] = 1` is strictly the smallest
diagonal entry, yet the code returns `(0, 0, 1)` instead of the claimed
`(0, 1, 0)`: the second branch repeats the first branch's condition
verbatim, so `(0, 1, 0)` is unreachable. -/
theorem C4_diagonal_tiebreak_eval :
    estimateNormalsFastEigen zOr zOr zOr c4Cov = (0, 0, 1) ∧
      c4Cov 4 < c4Cov 0 ∧ c4Cov 4 < c4Cov 8 ∧
      estimateNormalsFastEigen zOr zOr zOr c4Cov ≠ (0, 1, 0) := by
  refine ⟨?_, ?_, ?_, ?_⟩ <;> norm_num [estimateNormalsFastEigen, o3dMinCoeff, c4Cov]

/-! ### C5: OffsetCalculator::get decodes row-major, axis 0 fastest -/

/-- Helper: `toU32` is the identity on `int64_t` values that fit `uint32_t`. -/
theorem toU32_eq_toNat (x : ℤ) (h0 : 0 ≤ x) (h1 : x < (U32 : ℤ)) :
    toU32 x = x.toNat := by
  unfold toU32
  rw [show x.emod (U32 : ℤ) = x % (U32 : ℤ) from rfl, Int.emod_eq_of_lt h0 h1]

/-- Helper: projecting `ocGetLoop` onto operand `a` gives `ocGetArg` over
the per-axis `(size, stride[a])` pairs. -/
theorem ocGetLoop_getD (axes : List (ℕ × List ℕ)) :
    ∀ (lin : ℕ) (offs : List ℕ) (a : ℕ), a < offs.length →
      (∀ pr ∈ axes, a < pr.2.length) →
      (ocGetLoop axes lin offs).getD a 0 =
        ocGetArg (axes.map (fun pr => (pr.1, pr.2.getD a 0))) lin (offs.getD a 0) := by
  induction axes with
  | nil => intro lin offs a _ _; rfl
  | cons pr rest ih =>
    intro lin offs a ha hax
    obtain ⟨s, st⟩ := pr
    simp only [ocGetLoop, List.map_cons, ocGetArg]
    have hst : a < st.length := hax (s, st) (List.mem_cons_self _ _)
    have hzl : a < (List.zipWith (fun o v => (o + lin % s * v) % U32) offs st).length := by
      rw [List.length_zipWith]
      omega
    rw [ih (lin / s) _ a hzl (fun pr hpr => hax pr (List.mem_cons_of_mem _ hpr))]
    congr 1
    rw [List.getD_eq_getElem _ _ hzl, List.getElem_zipWith,
      List.getD_eq_getElem _ _ ha, List.getD_eq_getElem _ _ hst]

/-- Helper: while the exact running sum stays below `2^32`, the wrapping
accumulation of `ocGetArg` computes it exactly. -/
theorem ocGetArg_eq_specSum (axes : List (ℕ × ℕ)) :
    ∀ (lin o : ℕ), o + specSum axes lin < U32 →
      ocGetArg axes lin o = o + specSum axes lin := by
  induction axes with
  | nil => intro lin o _; simp [ocGetArg, specSum]
  | cons pr rest ih =>
    obtain ⟨s, v⟩ := pr
    intro lin o hlt
    simp only [ocGetArg, specSum] at hlt ⊢
    set t := lin % s * v with ht
    set S := specSum rest (lin / s) with hS
    have h1 : (o + t) % U32 = o + t := Nat.mod_eq_of_lt (by omega)
    rw [h1, ih (lin / s) (o + t) (by omega)]
    omega

/-- Helper: the recursive sum of `ocGetArg` equals the claim's closed form,
dividing the linear index by the product of the preceding extents. -/
theorem specSum_eq_formula (axes : List (ℕ × ℕ)) :
    ∀ i : ℕ, specSum axes i =
      ∑ d ∈ Finset.range axes.length,
        (i / ∏ k ∈ Finset.range d, (axes.getD k (1, 0)).1) % (axes.getD d (1, 0)).1 *
          (axes.getD d (1, 0)).2 := by
  induction axes with
  | nil => intro i; simp [specSum]
  | cons pr rest ih =>
    obtain ⟨s, v⟩ := pr
    intro i
    simp only [specSum, List.length_cons]
    rw [Finset.sum_range_succ']
    have hrw : ∀ d ∈ Finset.range rest.length,
        (i / ∏ k ∈ Finset.range (d + 1), (((s, v) :: rest).getD k (1, 0)).1) %
            ((((s, v) :: rest)).getD (d + 1) (1, 0)).1 *
            ((((s, v) :: rest)).getD (d + 1) (1, 0)).2 =
          (i / s / ∏ k ∈ Finset.range d, (rest.getD k (1, 0)).1) %
            (rest.getD d (1, 0)).1 * (rest.getD d (1, 0)).2 := by
      intro d _
      have hprod : ∏ k ∈ Finset.range (d + 1), (((s, v) :: rest).getD k (1, 0)).1 =
          s * ∏ k ∈ Finset.range d, (rest.getD k (1, 0)).1 := by
        rw [Finset.prod_range_succ']
        simp only [List.getD_cons_succ, List.getD_cons_zero]
        rw [mul_comm]
      rw [hprod, ← Nat.div_div_eq_div_mul]
      simp only [List.getD_cons_succ]
    rw [Finset.sum_congr rfl hrw, ← ih (i / s)]
    simp only [List.getD_cons_zero, Finset.prod_range_zero, Nat.div_one]
    omega

/-- C5: for every `OffsetCalculator` built with `0 ≤ dims ≤ MAX_DIMS` from
positive in-range extents and in-range strides, and every linear work index
whose exact byte-offset sum fits `uint32_t`, `get` returns for operand `a`
exactly the claim's row-major decoding: the sum over axes `d < dims` of
`((i div (sizes[0] * ... * sizes[d-1])) mod sizes[d]) * strides[a][d]`,
axis 0 varying fastest and axes at and beyond `dims` contributing nothing. -/
theorem C5_offset_calculator_decode (nargs dims : ℕ) (sizes : List ℤ)
    (strides : List (List ℤ)) (oc : OffsetCalc) (a i : ℕ)
    (hmk : mkOffsetCalc nargs dims sizes strides = some oc)
    (ha : a < nargs)
    (hsz : ∀ d, d < dims → 0 < sizes.getD d 0 ∧ sizes.getD d 0 < (U32 : ℤ))
    (hst : ∀ d, d < dims →
      0 ≤ (strides.getD a []).getD d 0 ∧ (strides.getD a []).getD d 0 < (U32 : ℤ))
    (hi : i < U32)
    (hsum : specByteOffset dims sizes strides a i < U32) :
    (ocGet oc nargs i).getD a 0 = specByteOffset dims sizes strides a i := by
  unfold mkOffsetCalc at hmk
  by_cases hdims : dims > MAXDIMS
  · rw [if_pos hdims] at hmk
    exact absurd hmk (by simp)
  rw [if_neg hdims] at hmk
  have hoc := (Option.some.injEq _ _).mp hmk
  subst hoc
  unfold ocGet
  have haxes : ((((List.range MAXDIMS).map
        (fun d => if d < dims then toU32 (sizes.getD d 0) else 1)).zip
        ((List.range MAXDIMS).map
          (fun d => (List.range nargs).map
            (fun b => if d < dims then toU32 ((strides.getD b []).getD d 0) else 0)))).take
          dims) =
      (List.range dims).map (fun d =>
        (toU32 (sizes.getD d 0),
          (List.range nargs).map (fun b => toU32 ((strides.getD b []).getD d 0)))) := by
    rw [List.zip_map', ← List.map_take, List.take_range, Nat.min_eq_left (by omega)]
    apply List.map_congr_left
    intro d hd
    have hdlt : d < dims := List.mem_range.mp hd
    rw [if_pos hdlt]
    congr 1
    apply List.map_congr_left
    intro b _
    rw [if_pos hdlt]
  rw [haxes, ocGetLoop_getD _ i (List.replicate nargs 0) a
      (by rw [List.length_replicate]; exact ha)
      (by
        intro pr hpr
        rw [List.mem_map] at hpr
        obtain ⟨d, _, rfl⟩ := hpr
        rw [List.length_map, List.length_range]
        exact ha),
    List.map_map]
  have hmapped : ((List.range dims).map
      ((fun pr : ℕ × List ℕ => (pr.1, pr.2.getD a 0)) ∘ (fun d =>
        (toU32 (sizes.getD d 0),
          (List.range nargs).map (fun b => toU32 ((strides.getD b []).getD d 0)))))) =
      (List.range dims).map (fun d =>
        (toU32 (sizes.getD d 0), toU32 ((strides.getD a []).getD d 0))) := by
    apply List.map_congr_left
    intro d _
    simp only [Function.comp_apply]
    congr 1
    rw [List.getD_eq_getElem _ _ (by rw [List.length_map, List.length_range]; exact ha),
      List.getElem_map, List.getElem_range]
  rw [hmapped]
  have hgetd : ∀ d, d < dims →
      (((List.range dims).map (fun d =>
        (toU32 (sizes.getD d 0), toU32 ((strides.getD a []).getD d 0)))).getD d (1, 0)) =
        ((sizes.getD d 0).toNat, ((strides.getD a []).getD d 0).toNat) := by
    intro d hd
    rw [List.getD_eq_getElem _ _ (by rw [List.length_map, List.length_range]; exact hd),
      List.getElem_map, List.getElem_range,
      toU32_eq_toNat _ (hsz d hd).1.le (hsz d hd).2,
      toU32_eq_toNat _ (hst d hd).1 (hst d hd).2]
  have hform : specSum ((List.range dims).map (fun d =>
      (toU32 (sizes.getD d 0), toU32 ((strides.getD a []).getD d 0)))) i =
      specByteOffset dims sizes strides a i := by
    rw [specSum_eq_formula, List.length_map, List.length_range]
    unfold specByteOffset
    apply Finset.sum_congr rfl
    intro d hd
    have hdlt : d < dims := Finset.mem_range.mp hd
    rw [hgetd d hdlt]
    have hprod : (∏ k ∈ Finset.range d, (((List.range dims).map (fun d =>
        (toU32 (sizes.getD d 0), toU32 ((strides.getD a []).getD d 0)))).getD k (1, 0)).1) =
        ∏ k ∈ Finset.range d, (sizes.getD k 0).toNat := by
      apply Finset.prod_congr rfl
      intro k hk
      rw [hgetd k (lt_trans (Finset.mem_range.mp hk) hdlt)]
    rw [hprod]
  have hrepl : (List.replicate nargs (0 : ℕ)).getD a 0 = 0 := by
    rw [List.getD_eq_getElem _ _ (by rw [List.length_replicate]; exact ha)]
    exact List.getElem_replicate ..
  rw [hrepl, ocGetArg_eq_specSum _ i 0 (by rw [Nat.zero_add, hform]; exact hsum),
    Nat.zero_add, hform]

/-- C5, witness: one operand, `dims = 2`, `sizes = [3, 4]`,
`strides[0] = [1, 3]`; the linear index `7` decodes to coordinates
`(7 mod 3, 7 div 3) = (1, 2)` and offset `1 * 1 + 2 * 3 = 7`. -/
theorem C5_offset_calculator_decode_witness :
    (ocGet ⟨2, [3, 4, 1, 1, 1, 1, 1, 1, 1, 1],
        [[1], [3], [0], [0], [0], [0], [0], [0], [0], [0]]⟩ 1 7).getD 0 0 =
      specByteOffset 2 [3, 4] [[1, 3]] 0 7 :=
  C5_offset_calculator_decode 1 2 [3, 4] [[1, 3]]
    ⟨2, [3, 4, 1, 1, 1, 1, 1, 1, 1, 1],
      [[1], [3], [0], [0], [0], [0], [0], [0], [0], [0]]⟩ 0 7
    (by decide) (by decide)
    (by intro d hd; interval_cases d <;> constructor <;> decide)
    (by intro d hd; interval_cases d <;> constructor <;> decide)
    (by decide) (by decide)

/-! ### C6: reduction dimensions and the output pointer -/

/-- Helper: `decompose` yields one coordinate per master stride. -/
theorem decompose_length (ms : List ℤ) (idx : ℤ) : (decompose ms idx).length = ms.length := by
  induction ms generalizing idx with
  | nil => rfl
  | cons m rest ih => simp [decompose, ih]

/-- Helper: the offset loop of `GetWorkloadDataPtr` accumulates exactly the
decomposed coordinates times the operand's byte strides. -/
theorem offsetLoop_decompose (ms : List ℤ) (bs : List ℤ) (idx acc : ℤ) :
    offsetLoop (ms.zip bs) idx acc =
      acc + (List.zipWith (fun c b => c * b) (decompose ms idx) bs).sum := by
  induction ms generalizing bs idx acc with
  | nil => simp [offsetLoop, decompose]
  | cons m rest ih =>
    cases bs with
    | nil => simp [offsetLoop, decompose]
    | cons b bs' =>
      simp only [List.zip_cons_cons, offsetLoop, decompose, List.zipWith_cons_cons,
        List.sum_cons]
      have h := ih bs' (Int.tmod idx m) (acc + Int.tdiv idx m * b)
      simp only [List.zip] at h
      rw [h]
      ring

/-- Helper: two zipWith-product sums agree when the factor lists agree at
every position except one where the common coefficient list is zero. -/
theorem sum_zipWith_congr_zero (bs xs ys : List ℤ) (d : ℕ)
    (hx : xs.length = bs.length) (hy : ys.length = bs.length)
    (hbd : bs.getD d 0 = 0)
    (hdiff : ∀ k, k < bs.length → k ≠ d → xs.getD k 0 = ys.getD k 0) :
    (List.zipWith (fun c b => c * b) xs bs).sum =
      (List.zipWith (fun c b => c * b) ys bs).sum := by
  induction bs generalizing xs ys d with
  | nil =>
    rw [List.length_eq_zero.mp hx, List.length_eq_zero.mp hy]
  | cons b bs' ih =>
    cases xs with
    | nil => simp at hx
    | cons x xs' =>
      cases ys with
      | nil => simp at hy
      | cons y ys' =>
        simp only [List.zipWith_cons_cons, List.sum_cons]
        cases d with
        | zero =>
          have hb : b = 0 := hbd
          have htail : (List.zipWith (fun c b => c * b) xs' bs').sum =
              (List.zipWith (fun c b => c * b) ys' bs').sum := by
            refine ih xs' ys' bs'.length (by simpa using hx) (by simpa using hy)
              (by simp) ?_
            intro k hk _
            have := hdiff (k + 1) (by simpa using Nat.succ_lt_succ hk) (by simp)
            simpa using this
          rw [hb, htail]; ring
        | succ d' =>
          have hhead : x = y := by
            have := hdiff 0 (by simp) (by simp)
            simpa using this
          have htail : (List.zipWith (fun c b => c * b) xs' bs').sum =
              (List.zipWith (fun c b => c * b) ys' bs').sum := by
            refine ih xs' ys' d' (by simpa using hx) (by simpa using hy)
              (by simpa using hbd) ?_
            intro k hk hkd
            have := hdiff (k + 1) (by simpa using Nat.succ_lt_succ hk)
              (by simpa using hkd)
            simpa using this
          rw [hhead, htail]

/-- C6: for any Indexer state, if axis `d` is a reduction dimension (output
byte stride `0` there and master extent `> 1`), then two nonnegative
workload indices whose row-major decompositions against the master strides
agree at every axis other than `d` are mapped by `GetOutputPtr` to the same
pointer. -/
theorem C6_reduction_dim_same_output_ptr (ind : IndexerS) (d : ℕ) (i j : ℤ)
    (hd : d < ind.ndims)
    (hmsl : ind.masterStrides.length = ind.ndims)
    (hbsl : (ind.outputs.getD 0 defaultTRef).byteStrides.length = ind.ndims)
    (hred : isReductionDim ind d)
    (hi : 0 ≤ i) (hj : 0 ≤ j)
    (hdiff : ∀ k, k < ind.ndims → k ≠ d →
      (decompose (ind.masterStrides.take ind.ndims) i).getD k 0 =
        (decompose (ind.masterStrides.take ind.ndims) j).getD k 0) :
    getOutputPtr ind i = getOutputPtr ind j := by
  set out0 := ind.outputs.getD 0 defaultTRef with hout0
  set ms := ind.masterStrides.take ind.ndims with hms
  set bs := out0.byteStrides.take ind.ndims with hbs
  have hmsl' : ms.length = ind.ndims := by
    rw [hms, List.length_take, hmsl, min_self]
  have hbsl' : bs.length = ind.ndims := by
    rw [hbs, List.length_take, hbsl, min_self]
  have hsum : (List.zipWith (fun c b => c * b) (decompose ms i) bs).sum =
      (List.zipWith (fun c b => c * b) (decompose ms j) bs).sum := by
    refine sum_zipWith_congr_zero bs _ _ d ?_ ?_ ?_ ?_
    · rw [decompose_length, hmsl', hbsl']
    · rw [decompose_length, hmsl', hbsl']
    · have hd' : d < out0.byteStrides.length := by rw [hbsl]; exact hd
      rw [hbs, List.getD_eq_getElem _ _ (by rw [hbsl']; exact hd),
        List.getElem_take]
      rw [← List.getD_eq_getElem _ _ hd']
      exact hred.1
    · intro k hk hkd
      exact hdiff k (hbsl' ▸ hk) hkd
  unfold getOutputPtr getWorkloadDataPtr
  rw [if_neg (not_lt.mpr hi), if_neg (not_lt.mpr hj), ← hout0, ← hms, ← hbs,
    offsetLoop_decompose, offsetLoop_decompose, hsum]

/-- C6, witness: in `sampleIndexer` axis 0 is a reduction dimension, the
workload indices `1` and `4` decompose to `(0, 1)` and `(1, 1)` against the
master strides `[3, 1]`, and both are mapped to output address `104`. -/
theorem C6_reduction_dim_same_output_ptr_witness :
    (0 < sampleIndexer.ndims ∧ isReductionDim sampleIndexer 0 ∧
      getOutputPtr sampleIndexer 1 = some 104) ∧
      getOutputPtr sampleIndexer 1 = getOutputPtr sampleIndexer 4 :=
  ⟨⟨by decide, by constructor <;> decide, by decide⟩,
    C6_reduction_dim_same_output_ptr sampleIndexer 0 1 4 (by decide) (by decide)
      (by decide) ⟨by decide, by decide⟩ (by decide) (by decide) (by decide)⟩

/-! ### C7: unprojection output row count -/

/-- Helper: over any workload list, the kernel body increments the counter
exactly once per valid strided pixel. -/
theorem unproject_foldl_count (depth : ℕ → ℕ → ℚ) (transform : ℕ → ℕ → ℚ → ℚ × ℚ × ℚ)
    (depth_scale depth_max : ℚ) (cols_strided stride : ℕ) :
    ∀ (l : List ℕ) (st : UnprojState),
      (l.foldl (unprojectBody depth transform depth_scale depth_max cols_strided stride)
          st).count =
        st.count + l.countP (validStridedPixel depth depth_scale depth_max cols_strided stride) := by
  intro l
  induction l with
  | nil => intro st; simp
  | cons idx rest ih =>
    intro st
    rw [List.foldl_cons, ih, List.countP_cons]
    by_cases h : 0 < depth (idx % cols_strided * stride) (idx / cols_strided * stride) /
        depth_scale ∧
        depth (idx % cols_strided * stride) (idx / cols_strided * stride) / depth_scale <
          depth_max
    · have hb : validStridedPixel depth depth_scale depth_max cols_strided stride idx = true := by
        unfold validStridedPixel
        exact decide_eq_true h
      have hc : (unprojectBody depth transform depth_scale depth_max cols_strided stride
          st idx).count = st.count + 1 := by
        unfold unprojectBody
        rw [if_pos h]
      rw [hb, if_pos rfl, hc]
      omega
    · have hb : validStridedPixel depth depth_scale depth_max cols_strided stride idx = false := by
        unfold validStridedPixel
        exact decide_eq_false h
      have hc : (unprojectBody depth transform depth_scale depth_max cols_strided stride
          st idx).count = st.count := by
        unfold unprojectBody
        rw [if_neg h]
      rw [hb, if_neg (by simp), hc]
      omega

/-- Helper: rows at or beyond the final counter are never written. -/
theorem unproject_foldl_unwritten (depth : ℕ → ℕ → ℚ) (transform : ℕ → ℕ → ℚ → ℚ × ℚ × ℚ)
    (depth_scale depth_max : ℚ) (cols_strided stride : ℕ) :
    ∀ (l : List ℕ) (st : UnprojState),
      (∀ s, st.count ≤ s → st.buf s = none) →
      ∀ s, (l.foldl (unprojectBody depth transform depth_scale depth_max cols_strided stride)
          st).count ≤ s →
        (l.foldl (unprojectBody depth transform depth_scale depth_max cols_strided stride)
          st).buf s = none := by
  intro l
  induction l with
  | nil => intro st hst s hs; exact hst s hs
  | cons idx rest ih =>
    intro st hst s hs
    rw [List.foldl_cons] at hs ⊢
    refine ih _ ?_ s hs
    intro s' hs'
    unfold unprojectBody at hs' ⊢
    by_cases h : 0 < depth (idx % cols_strided * stride) (idx / cols_strided * stride) /
        depth_scale ∧
        depth (idx % cols_strided * stride) (idx / cols_strided * stride) / depth_scale <
          depth_max
    · rw [if_pos h] at hs' ⊢
      simp only at hs' ⊢
      rw [if_neg (by omega)]
      exact hst s' (by omega)
    · rw [if_neg h] at hs' ⊢
      exact hst s' hs'

/-- C7: for every depth image, scale, max depth and positive stride, the
points tensor returned by `UnprojectCPU` after the final `Slice` has
exactly as many rows as there are visited strided pixels whose depth
divided by `depth_scale` lies strictly in `(0, depth_max)`; that count
never exceeds the number of visited pixels, and no row at or beyond it is
ever written — no other pixel contributes an output point. -/
theorem C7_unproject_sliced_row_count (depth : ℕ → ℕ → ℚ)
    (transform : ℕ → ℕ → ℚ → ℚ × ℚ × ℚ) (depth_scale depth_max : ℚ)
    (rows cols stride : ℕ) (hstride : 0 < stride) :
    (unprojectCPU depth transform depth_scale depth_max rows cols stride).1 =
      (List.range (rows / stride * (cols / stride))).countP
        (validStridedPixel depth depth_scale depth_max (cols / stride) stride) ∧
      (unprojectCPU depth transform depth_scale depth_max rows cols stride).1 ≤
        rows / stride * (cols / stride) ∧
      ∀ s, (unprojectCPU depth transform depth_scale depth_max rows cols stride).1 ≤ s →
        (unprojectCPU depth transform depth_scale depth_max rows cols stride).2 s = none := by
  have hcount := unproject_foldl_count depth transform depth_scale depth_max
    (cols / stride) stride (List.range (rows / stride * (cols / stride))) ⟨0, fun _ => none⟩
  have hunwritten := unproject_foldl_unwritten depth transform depth_scale depth_max
    (cols / stride) stride (List.range (rows / stride * (cols / stride))) ⟨0, fun _ => none⟩
    (fun _ _ => rfl)
  refine ⟨?_, ?_, ?_⟩
  · unfold unprojectCPU launchGeneralKernel
    dsimp only
    rw [hcount]
    exact Nat.zero_add _
  · unfold unprojectCPU launchGeneralKernel
    dsimp only
    rw [hcount]
    have := List.countP_le_length
      (p := validStridedPixel depth depth_scale depth_max (cols / stride) stride)
      (l := List.range (rows / stride * (cols / stride)))
    simpa using this
  · intro s hs
    unfold unprojectCPU launchGeneralKernel at hs ⊢
    dsimp only at hs ⊢
    exact hunwritten s hs

/-- C7, witness: a 2x2 depth image with constant depth 5, scale 1 and max
depth 10 at stride 1 — all four pixels are valid. -/
theorem C7_unproject_sliced_row_count_witness :
    (0 : ℕ) < 1 ∧
      ((unprojectCPU (fun _ _ => 5) (fun _ _ _ => (0, 0, 0)) 1 10 2 2 1).1 =
          (List.range (2 / 1 * (2 / 1))).countP
            (validStridedPixel (fun _ _ => 5) 1 10 (2 / 1) 1) ∧
        (unprojectCPU (fun _ _ => 5) (fun _ _ _ => (0, 0, 0)) 1 10 2 2 1).1 ≤
          2 / 1 * (2 / 1) ∧
        ∀ s, (unprojectCPU (fun _ _ => 5) (fun _ _ _ => (0, 0, 0)) 1 10 2 2 1).1 ≤ s →
          (unprojectCPU (fun _ _ => 5) (fun _ _ _ => (0, 0, 0)) 1 10 2 2 1).2 s = none) :=
  ⟨by decide,
    C7_unproject_sliced_row_count (fun _ _ => 5) (fun _ _ _ => (0, 0, 0)) 1 10 2 2 1
      (by decide)⟩

/-! ### C8: Permute validation of non-permutation inputs -/

/-- C8: `Permute` on a rank-2 `TensorRef` with `dims = [2, 0]` (an
out-of-range entry, so not a permutation of `[0, 2)`): the validation scan
itself executes `seen_dims[2]` on a `std::vector<bool>` of size 2 — an
out-of-bounds write, i.e. undefined behavior — rather than raising the
invalid-argument condition the claim guarantees. (Wrong-length and
in-range-duplicate inputs do take the raising path.) -/
theorem C8_permute_oob_validation_ub :
    permute ⟨64, 2, 4, [3, 4], [32, 8]⟩ [2, 0] = PermuteResult.ub ∧
      PermuteResult.ub ≠ PermuteResult.err ∧
      permute ⟨64, 2, 4, [3, 4], [32, 8]⟩ [0] = PermuteResult.err ∧
      permute ⟨64, 2, 4, [3, 4], [32, 8]⟩ [0, 0] = PermuteResult.err := by
  refine ⟨by decide, by decide, by decide, by decide⟩

/-! ### C9: pointer accessors on out-of-range operand indices -/

/-- C9, counterexample: `sampleIndexer` has one input, and
`GetInputPtr(5, 0)` returns a null pointer — it does not raise. -/
theorem C9_ptr_accessor_null_counterexample :
    getInputPtr sampleIndexer 5 0 = PtrResult.nullPtr ∧
      getInputPtr sampleIndexer 5 0 ≠ PtrResult.raised := by
  refine ⟨by decide, by decide⟩

/-- C9, amended: for every Indexer state and every operand index outside
`[0, NumInputs())`, the pointer accessor `GetInputPtr` returns a null
pointer (for any workload index), while the `TensorRef` accessor `GetInput`
is the one that raises the index-out-of-range condition at the call site. -/
theorem C9_ptr_accessor_null_on_oob (ind : IndexerS) (i w : ℤ)
    (h : i < 0 ∨ (ind.numInputs : ℤ) ≤ i) :
    getInputPtr ind i w = PtrResult.nullPtr ∧
      getInputRef ind i = Except.error () := by
  constructor
  · unfold getInputPtr
    rw [if_pos h]
  · unfold getInputRef
    rw [if_pos (h.elim Or.inr Or.inl)]

/-- C9, witness for the amended theorem: operand index 7 against the
one-input `sampleIndexer`. -/
theorem C9_ptr_accessor_null_on_oob_witness :
    ((7 : ℤ) < 0 ∨ (sampleIndexer.numInputs : ℤ) ≤ 7) ∧
      (getInputPtr sampleIndexer 7 0 = PtrResult.nullPtr ∧
        getInputRef sampleIndexer 7 = Except.error ()) :=
  ⟨by decide, C9_ptr_accessor_null_on_oob sampleIndexer 7 0 (by decide)⟩

/-! ### C10: Permute round-trip -/

/-- Helper: when every entry of `dims` is a valid index into `seen`, the
validation scan terminates normally, preserves the length, and marks
exactly the previously-marked slots plus the slots named by `dims`. -/
theorem markSeen_spec (dims : List ℤ) : ∀ (seen : List Bool),
    (∀ x ∈ dims, 0 ≤ x ∧ x < (seen.length : ℤ)) →
    ∃ s, markSeen seen dims = some s ∧ s.length = seen.length ∧
      ∀ k, k < seen.length →
        (s.getD k false = true ↔
          seen.getD k false = true ∨ ∃ x ∈ dims, x.toNat = k) := by
  induction dims with
  | nil =>
    intro seen _
    exact ⟨seen, rfl, rfl, by simp [markSeen]⟩
  | cons d rest ih =>
    intro seen h
    have hd := h d (List.mem_cons_self _ _)
    have hm : d.toNat < seen.length := by omega
    simp only [markSeen]
    rw [if_pos hd]
    have hlen : (seen.set d.toNat true).length = seen.length := by simp
    obtain ⟨s, hs, hsl, hchar⟩ := ih (seen.set d.toNat true)
      (by intro x hx; rw [hlen]; exact h x (List.mem_cons_of_mem _ hx))
    refine ⟨s, hs, by rw [hsl, hlen], ?_⟩
    intro k hk
    rw [hchar k (by rw [hlen]; exact hk)]
    have hset : (seen.set d.toNat true).getD k false =
        if d.toNat = k then true else seen.getD k false := by
      rw [List.getD_eq_getElem _ _ (by rw [hlen]; exact hk),
        List.getElem_set, List.getD_eq_getElem _ _ hk]
    rw [hset]
    by_cases hdk : d.toNat = k
    · simp only [if_pos hdk]
      constructor
      · intro _
        exact Or.inr ⟨d, List.mem_cons_self _ _, hdk⟩
      · intro _
        simp
    · simp only [if_neg hdk]
      constructor
      · rintro (hone | ⟨x, hx, hxk⟩)
        · exact Or.inl hone
        · exact Or.inr ⟨x, List.mem_cons_of_mem _ hx, hxk⟩
      · rintro (hone | ⟨x, hx, hxk⟩)
        · exact Or.inl hone
        · rcases List.mem_cons.mp hx with rfl | hx'
          · exact absurd hxk hdk
          · exact Or.inr ⟨x, hx', hxk⟩

/-- Helper: a `dims` list whose entries are valid indices and which covers
every index makes `Permute` take the normal path and return the rewrite. -/
theorem permute_ok (t : TRef) (dims : List ℤ)
    (hlen : dims.length = t.ndims)
    (hrange : ∀ x ∈ dims, 0 ≤ x ∧ x < (t.ndims : ℤ))
    (hsurj : ∀ k, k < t.ndims → ∃ x ∈ dims, x.toNat = k) :
    permute t dims = PermuteResult.ok (permuteApply t dims) := by
  obtain ⟨s, hs, hsl, hchar⟩ := markSeen_spec dims (List.replicate t.ndims false)
    (by intro x hx; simpa using hrange x hx)
  unfold permute
  rw [if_neg (by rw [hlen]; exact fun hcon => hcon rfl), hs]
  have hall : s.all (fun b => b) = true := by
    rw [List.all_eq_true]
    intro b hb
    obtain ⟨k, hk, rfl⟩ := List.mem_iff_getElem.mp hb
    have hk' : k < t.ndims := by
      have := hsl
      simp only [List.length_replicate] at this
      omega
    have hmark := (hchar k (by simpa using hk')).mpr (Or.inr (hsurj k hk'))
    rw [List.getD_eq_getElem _ _ hk] at hmark
    simpa using hmark
  show (if ¬(s.all fun b => b) = true then PermuteResult.err
    else PermuteResult.ok (permuteApply t dims)) = PermuteResult.ok (permuteApply t dims)
  rw [if_neg (fun hneg => hneg hall)]

/-- Helper: a valid permutation followed by its right inverse restores a
list of matching length, through the `Permute` rewrite expression. -/
theorem perm_map_roundtrip (l p q : List ℤ) (n : ℕ)
    (hl : l.length = n) (hp : p.length = n) (hq : q.length = n)
    (hqr : ∀ x ∈ q, 0 ≤ x ∧ x < (n : ℤ))
    (hpq : ∀ k, k < n → p.getD (q.getD k 0).toNat 0 = (k : ℤ)) :
    q.map (fun d =>
      (p.map (fun e => l.getD (wrapDim e n).toNat 0)).getD (wrapDim d n).toNat 0) = l := by
  apply List.ext_getElem
  · simp [hq, hl]
  · intro k hk1 hk2
    rw [List.getElem_map]
    have hkn : k < n := by
      rw [← hq]
      simpa using hk1
    have hkq : k < q.length := hq ▸ hkn
    have hdr := hqr (q[k]) (List.getElem_mem _)
    have hwd : wrapDim (q[k]) n = q[k] := by
      unfold wrapDim
      rw [if_neg (not_lt.mpr hdr.1)]
    rw [hwd]
    have hdn : (q[k]).toNat < p.length := by rw [hp]; omega
    rw [List.getD_eq_getElem _ _ (by rw [List.length_map]; exact hdn),
      List.getElem_map]
    have hqk : q.getD k 0 = q[k] := List.getD_eq_getElem _ _ _
    have hpqk : p[(q[k]).toNat] = (k : ℤ) := by
      have hx := hpq k hkn
      rw [hqk, List.getD_eq_getElem _ _ hdn] at hx
      exact hx
    rw [hpqk]
    have hwk : wrapDim (k : ℤ) n = (k : ℤ) := by
      unfold wrapDim
      rw [if_neg (by omega)]
    rw [hwk, Int.toNat_natCast, List.getD_eq_getElem _ _ (hl ▸ hkn)]

/-- Helper: the rewrite expression applied to the identity permutation is
the identity on a list of matching length. -/
theorem identity_map_getD (l : List ℤ) (n : ℕ) (hl : l.length = n) :
    (identityDims n).map (fun d => l.getD (wrapDim d n).toNat 0) = l := by
  have hidl : (identityDims n).length = n := by
    rw [identityDims, List.length_map, List.length_range]
  apply List.ext_getElem
  · rw [List.length_map, hidl, hl]
  · intro k hk1 hk2
    have hkn : k < n := by
      rw [List.length_map, hidl] at hk1
      exact hk1
    rw [List.getElem_map]
    have hkidx : k < (identityDims n).length := by
      rw [hidl]
      exact hkn
    have hkid : (identityDims n)[k] = (k : ℤ) := by
      simp only [identityDims, List.getElem_map, List.getElem_range]
    rw [hkid]
    have hwk : wrapDim (k : ℤ) n = (k : ℤ) := by
      unfold wrapDim
      rw [if_neg (by omega)]
    rw [hwk, Int.toNat_natCast, List.getD_eq_getElem _ _ (hl ▸ hkn)]

/-- Helper: if `q` inverts `p` on the left, every index is hit by some
entry of `q`. -/
theorem perm_surj (p q : List ℤ) (n : ℕ)
    (hp : p.length = n) (hq : q.length = n)
    (hpr : ∀ x ∈ p, 0 ≤ x ∧ x < (n : ℤ))
    (hqp : ∀ k, k < n → q.getD (p.getD k 0).toNat 0 = (k : ℤ)) :
    ∀ k, k < n → ∃ x ∈ q, x.toNat = k := by
  intro k hk
  have hkp : k < p.length := hp ▸ hk
  have hpk : p.getD k 0 = p[k] := List.getD_eq_getElem _ _ _
  have hb := hpr (p[k]) (List.getElem_mem _)
  have hidx : (p.getD k 0).toNat < q.length := by rw [hq, hpk]; omega
  refine ⟨q.getD (p.getD k 0).toNat 0, ?_, ?_⟩
  · rw [List.getD_eq_getElem _ _ hidx]
    exact List.getElem_mem _
  · rw [hqp k hk]
    simp

/-- C10: for every `TensorRef` and valid permutation `p` of `[0, ndims)`
with inverse `q` (both given with entries in range and the two composition
identities), `Permute(p)` succeeds with the rewritten shape/strides,
`Permute(q)` applied to the result succeeds and restores the original
`TensorRef` exactly (shape, byte strides, and all other fields), and
permuting by the identity permutation returns the `TensorRef` unchanged. -/
theorem C10_permute_inverse_roundtrip (t : TRef) (p q : List ℤ)
    (hsl : t.shape.length = t.ndims) (hbl : t.byteStrides.length = t.ndims)
    (hpl : p.length = t.ndims) (hql : q.length = t.ndims)
    (hpr : ∀ x ∈ p, 0 ≤ x ∧ x < (t.ndims : ℤ))
    (hqr : ∀ x ∈ q, 0 ≤ x ∧ x < (t.ndims : ℤ))
    (hpq : ∀ k, k < t.ndims → p.getD (q.getD k 0).toNat 0 = (k : ℤ))
    (hqp : ∀ k, k < t.ndims → q.getD (p.getD k 0).toNat 0 = (k : ℤ)) :
    permute t p = PermuteResult.ok (permuteApply t p) ∧
      permute (permuteApply t p) q = PermuteResult.ok t ∧
      permute t (identityDims t.ndims) = PermuteResult.ok t := by
  have hone : permute t p = PermuteResult.ok (permuteApply t p) :=
    permute_ok t p hpl hpr (perm_surj q p t.ndims hql hpl hqr hpq)
  have happ : permuteApply (permuteApply t p) q = t := by
    unfold permuteApply
    cases t with
    | mk data ndims dbs shape bstr =>
      simp only [TRef.mk.injEq, true_and]
      constructor
      · exact perm_map_roundtrip shape p q ndims hsl hpl hql hqr hpq
      · exact perm_map_roundtrip bstr p q ndims hbl hpl hql hqr hpq
  have htwo : permute (permuteApply t p) q = PermuteResult.ok t := by
    have hok := permute_ok (permuteApply t p) q hql hqr
      (perm_surj p q t.ndims hpl hql hpr hqp)
    rw [hok, happ]
  have hid : permute t (identityDims t.ndims) = PermuteResult.ok t := by
    have hok := permute_ok t (identityDims t.ndims)
      (by rw [identityDims, List.length_map, List.length_range])
      (by
        intro x hx
        rw [identityDims, List.mem_map] at hx
        obtain ⟨k, hk, rfl⟩ := hx
        rw [List.mem_range] at hk
        omega)
      (by
        intro k hk
        refine ⟨(k : ℤ), ?_, by simp⟩
        rw [identityDims]
        exact List.mem_map.mpr ⟨k, List.mem_range.mpr hk, rfl⟩)
    rw [hok]
    have : permuteApply t (identityDims t.ndims) = t := by
      unfold permuteApply
      cases t with
      | mk data ndims dbs shape bstr =>
        simp only [TRef.mk.injEq, true_and]
        exact ⟨identity_map_getD shape ndims hsl, identity_map_getD bstr ndims hbl⟩
    rw [this]
  exact ⟨hone, htwo, hid⟩

/-- C10, witness: rank-2 reference, `p = q = [1, 0]` (its own inverse). -/
theorem C10_permute_inverse_roundtrip_witness :
    permute ⟨64, 2, 4, [3, 4], [32, 8]⟩ [1, 0] =
        PermuteResult.ok (permuteApply ⟨64, 2, 4, [3, 4], [32, 8]⟩ [1, 0]) ∧
      permute (permuteApply ⟨64, 2, 4, [3, 4], [32, 8]⟩ [1, 0]) [1, 0] =
        PermuteResult.ok ⟨64, 2, 4, [3, 4], [32, 8]⟩ ∧
      permute ⟨64, 2, 4, [3, 4], [32, 8]⟩ (identityDims 2) =
        PermuteResult.ok ⟨64, 2, 4, [3, 4], [32, 8]⟩ :=
  C10_permute_inverse_roundtrip ⟨64, 2, 4, [3, 4], [32, 8]⟩ [1, 0] [1, 0]
    (by decide) (by decide) (by decide) (by decide) (by decide) (by decide)
    (by decide) (by decide)

end Open3D
